import Mathlib

/-!
Verification of the signing core of zeitgitter (src/zeitgitter/stamper.py).

Python strings are modelled as lists of characters (`Str`), the pure
validators and git-object builders are translated directly, and the stateful
request handlers `stamp_tag` and `stamp_branch` are modelled as functions
that also return the ordered list of observable events they perform
(timestamp sampling, durable log append, signature request).  The outcome of
the semaphore acquire in `limited_sign` is passed in as a boolean `acquired`,
and the external GnuPG signing call is passed in as a pure function `signer`
of the faked system time and the payload.  The GnuPG agent pool of
`Stamper.gpg` is modelled separately, with handles identified by their
creation index.
-/

namespace Zeitgitter

/-- Python strings, modelled as lists of unicode characters. -/
abbrev Str := List Char

/-- Is `c` a lowercase hexadecimal digit, i.e. in the character class
`[0-9a-f]` of the regular expression in `valid_commit`?  (The regex is
compiled without `re.IGNORECASE`.) -/
def isHexDigitLC (c : Char) : Bool :=
  c.isDigit || (decide ('a' ≤ c) && decide (c ≤ 'f'))

/-- Embeds `Stamper.valid_commit`: reject any string containing a newline,
then require a full match of the anchored regex of forty chars in
the class 0-9a-f.  On newline-free strings the Python end anchor is plain
end-of-string, so the regex match is: length forty and every character a
lowercase hex digit. -/
def valid_commit (s : Str) : Bool :=
  if s.contains '\n' then false
  else s.length == 40 && s.all isHexDigitLC

/-- The character class `[a-z]` of the tag regex under `re.IGNORECASE`,
with CPython Unicode semantics: the matcher maps the input character
through the simple Unicode lowercase mapping and tests membership in the
compiled set, which is a-z extended by the sre equivalence table entries
for the letters i and s (dotless i and long s).  A character therefore
matches iff it is an ASCII letter of either case or one of the four
non-ASCII characters capital I with dot above U+0130 (lowers to i),
dotless i U+0131, long s U+017F, and the Kelvin sign U+212A (lowers
to k). -/
def isLetterCI (c : Char) : Bool :=
  (decide ('a' ≤ c) && decide (c ≤ 'z')) || (decide ('A' ≤ c) && decide (c ≤ 'Z'))
    || c == '\u0130' || c == '\u0131' || c == '\u017F' || c == '\u212A'

/-- A character matching the tail class of the tag regex under
`re.IGNORECASE`: dash, dot, underscore, a letter as accepted by
`isLetterCI`, or a digit (no other character lowercases into the dash,
dot, underscore or digit entries of the compiled set). -/
def isTagTailChar (c : Char) : Bool :=
  c == '-' || c == '.' || c == '_' || isLetterCI c || c.isDigit

/-- Does the string contain two consecutive dots?  Embeds the Python test
for the substring of two dots in `valid_tag`. -/
def hasDotDot : Str → Bool
  | [] => false
  | [_] => false
  | a :: b :: rest => (a == '.' && b == '.') || hasDotDot (b :: rest)

/-- Full match of the anchored tag regex (letter, then up to 99 characters
of the tail class), case-insensitively. -/
def matchTagRegexCI (s : Str) : Bool :=
  match s with
  | [] => false
  | c :: rest => isLetterCI c && decide (rest.length ≤ 99) && rest.all isTagTailChar

/-- Embeds `Stamper.valid_tag`: reject any string containing a newline, then
require a full case-insensitive match of the tag regex and the absence of
two consecutive dots. -/
def valid_tag (s : Str) : Bool :=
  if s.contains '\n' then false
  else matchTagRegexCI s && !hasDotDot s

/-- The composite validity test of `stamp_branch`: commit and tree must be
valid commit ids, and the optional parent, when present, as well. -/
def branchValid (commit : Str) (parent : Option Str) (tree : Str) : Bool :=
  valid_commit commit && valid_commit tree
    && (match parent with | none => true | some p => valid_commit p)

/-- Decimal rendering of an integer, embedding the percent-d conversion. -/
def intStr (i : Int) : Str := (toString i).data

/-- Observable events of a request, in program order:
`sampled t` is the read of `sig_time` under the ordering lock,
`logged b` is the durable append of the bytes `b` to the commit log
(`log_commit` writes the commit id plus a newline and fsyncs before
returning), and `signRequested t p` is the invocation of the external
signing capability over payload `p` with faked system time `t`. -/
inductive Event where
  | sampled (t : Int)
  | logged (bytes : Str)
  | signRequested (fakedTime : Int) (payload : Str)
  deriving DecidableEq

/-- Result of `stamp_tag` and `stamp_branch`:
`ok text` is the signed object text, `unavailable` is the Python `None`
returned on semaphore timeout, `clientError` is the Python `406`. -/
inductive StampResult where
  | ok (text : Str)
  | unavailable
  | clientError
  deriving DecidableEq

/-- Per-process signing identity and configuration used by the stamping
functions: the full uid of the key, the own url, and the rendering of
`time.strftime` of the pattern year-month-day hour:minute:second UTC applied
to `time.gmtime` of the timestamp, modelled as a pure function of the
timestamp (no claim constrains its output). -/
structure Ctx where
  fullid : Str
  url : Str
  isoFormat : Int → Str

/-- Embeds `Stamper.limited_sign`: if the bounded semaphore was acquired
within the timeout, request one signature with the faked system time set to
`now` and return it; on timeout return `none` with no signing attempt.  The
`commit` parameter is unused, exactly as in the source.  The sleep on
`extra_delay` has no observable effect here and is omitted. -/
def limited_sign (acquired : Bool) (signer : Int → Str → Str)
    (now : Int) (commit : Str) (data : Str) : Option Str × List Event :=
  if acquired then (some (signer now data), [Event.signRequested now data])
  else (none, [])

/-- The tag object literal of `stamp_tag` (triple-quoted template with the
five interpolations). -/
def tagObj (fullid url : Str) (now : Int) (commit tagname : Str) : Str :=
  "object ".data ++ commit ++ "\ntype commit\ntag ".data ++ tagname
    ++ "\ntagger ".data ++ fullid ++ " ".data ++ intStr now
    ++ " +0000\n\n".data ++ url ++ " tag timestamp\n".data

/-- Embeds `Stamper.stamp_tag`.  `sigTime` is the value read from
`sig_time` under the ordering lock; `acquired` and `signer` model the
semaphore and the external signer as in `limited_sign`. -/
def stamp_tag (ctx : Ctx) (acquired : Bool) (signer : Int → Str → Str)
    (sigTime : Int) (commit tagname : Str) : StampResult × List Event :=
  if valid_commit commit && valid_tag tagname then
    let now := sigTime
    let tagobj := tagObj ctx.fullid ctx.url now commit tagname
    let res := limited_sign acquired signer now commit tagobj
    let ev := [Event.sampled now, Event.logged (commit ++ ['\n'])] ++ res.2
    match res.1 with
    | none => (StampResult.unavailable, ev)
    | some sig => (StampResult.ok (tagobj ++ sig), ev)
  else (StampResult.clientError, [])

/-- The first part of the commit object of `stamp_branch`: the tree line,
one parent line naming the stamped commit when the `parent` argument is
absent, or two parent lines (the given parent, then the stamped commit) when
it is present, then the author and committer lines. -/
def commitPart1 (fullid : Str) (now : Int) (commit : Str) (parent : Option Str)
    (tree : Str) : Str :=
  match parent with
  | none =>
      "tree ".data ++ tree ++ "\nparent ".data ++ commit
        ++ "\nauthor ".data ++ fullid ++ " ".data ++ intStr now
        ++ " +0000\ncommitter ".data ++ fullid ++ " ".data ++ intStr now
        ++ " +0000\n".data
  | some p =>
      "tree ".data ++ tree ++ "\nparent ".data ++ p ++ "\nparent ".data ++ commit
        ++ "\nauthor ".data ++ fullid ++ " ".data ++ intStr now
        ++ " +0000\ncommitter ".data ++ fullid ++ " ".data ++ intStr now
        ++ " +0000\n".data

/-- The second part of the commit object of `stamp_branch`: a blank line,
then the url, the words branch timestamp, and the iso rendering of the
timestamp, ending in a newline. -/
def commitPart2 (url : Str) (isonow : Str) : Str :=
  "\n".data ++ url ++ " branch timestamp ".data ++ isonow ++ "\n".data

/-- Embeds the Python replace of every newline by newline plus space, as
applied to the signature text in `stamp_branch`. -/
def replaceNl : Str → Str
  | [] => []
  | c :: rest => if c = '\n' then '\n' :: ' ' :: replaceNl rest else c :: replaceNl rest

/-- The gpgsig header of `stamp_branch`: the word gpgsig and a space, then
the signature with every newline replaced by newline plus space, with the
last character of that replacement dropped (the Python slice to minus one). -/
def gpgsigHeader (sig : Str) : Str :=
  "gpgsig ".data ++ (replaceNl sig).dropLast

/-- Embeds `Stamper.stamp_branch`. -/
def stamp_branch (ctx : Ctx) (acquired : Bool) (signer : Int → Str → Str)
    (sigTime : Int) (commit : Str) (parent : Option Str) (tree : Str) :
    StampResult × List Event :=
  if branchValid commit parent tree then
    let now := sigTime
    let isonow := ctx.isoFormat now
    let obj1 := commitPart1 ctx.fullid now commit parent tree
    let obj2 := commitPart2 ctx.url isonow
    let res := limited_sign acquired signer now commit (obj1 ++ obj2)
    let ev := [Event.sampled now, Event.logged (commit ++ ['\n'])] ++ res.2
    match res.1 with
    | none => (StampResult.unavailable, ev)
    | some sig => (StampResult.ok (obj1 ++ gpgsigHeader sig ++ obj2), ev)
  else (StampResult.clientError, [])

/-- Embeds `Stamper.gpg`, the agent pool selection.  Handles are identified
by their creation index (the directory suffix used in the source is the pool
length at creation time).  If fewer than `m` handles exist, create the next
one, append it to the pool and return it; otherwise rotate the pool left and
return the element wrapped around.  The empty-pool branch is unreachable
from the initial state. -/
def gpgNext (m : Nat) (pool : List Nat) : Nat × List Nat :=
  if pool.length < m then (pool.length, pool ++ [pool.length])
  else
    match pool with
    | [] => (0, [])
    | g :: rest => (g, rest ++ [g])

/-- Run `k` successive selections from the pool: the list of returned handles in
order, and the final pool. -/
def gpgRun (m : Nat) : Nat → List Nat → List Nat × List Nat
  | 0, pool => ([], pool)
  | Nat.succ k, pool =>
      let step := gpgNext m pool
      let r := gpgRun m k step.2
      (step.1 :: r.1, r.2)

/-- The pool as left behind by `Stamper.__init__`: the constructor creates
one handle directly, then calls `gpg` twice more (for `list_keys` and
`export_keys`). -/
def initPool (m : Nat) : List Nat := (gpgRun m 2 [0]).2

/-! Spec-side predicates, following the words of the claims (used only to be
compared against the definitions above). -/

/-- Claim-side character class: a hexadecimal digit matched
case-insensitively. -/
def hexDigitCI (c : Char) : Bool :=
  c.isDigit || (decide ('a' ≤ c) && decide (c ≤ 'f'))
    || (decide ('A' ≤ c) && decide (c ≤ 'F'))

/-- Claim-side commit validity: exactly forty characters, all hexadecimal
matched case-insensitively, no embedded newline. -/
def commitClaimCI (s : Str) : Bool :=
  decide (s.length = 40) && s.all hexDigitCI && !s.contains '\n'

/-- An ASCII letter of either case, as a proposition: the claim-side
reading of the letter class when case-insensitivity is taken to mean
ASCII case only. -/
def letterCI (c : Char) : Prop :=
  ('a' ≤ c ∧ c ≤ 'z') ∨ ('A' ≤ c ∧ c ≤ 'Z')

/-- A character of the tail class of the tag grammar under the ASCII
reading, as a proposition. -/
def tagTailCharP (c : Char) : Prop :=
  c = '-' ∨ c = '.' ∨ c = '_' ∨ letterCI c ∨ ('0' ≤ c ∧ c ≤ '9')

/-- The claim-side tag grammar under the ASCII reading: an ASCII letter
followed by up to 99 characters of the ASCII tail class. -/
def tagGrammarCI (s : Str) : Prop :=
  ∃ c rest, s = c :: rest ∧ letterCI c ∧ rest.length ≤ 99 ∧ ∀ x ∈ rest, tagTailCharP x

/-- A letter under Python case-insensitive matching, as a proposition: an
ASCII letter of either case, or one of the four non-ASCII characters that
CPython case folding identifies with a-z letters. -/
def letterFoldCI (c : Char) : Prop :=
  letterCI c ∨ c = '\u0130' ∨ c = '\u0131' ∨ c = '\u017F' ∨ c = '\u212A'

/-- A character of the tail class under Python case-insensitive matching,
as a proposition. -/
def tagTailCharFoldP (c : Char) : Prop :=
  c = '-' ∨ c = '.' ∨ c = '_' ∨ letterFoldCI c ∨ ('0' ≤ c ∧ c ≤ '9')

/-- The amended tag grammar: a letter under Python case folding followed
by up to 99 characters of the folded tail class. -/
def tagGrammarFoldCI (s : Str) : Prop :=
  ∃ c rest, s = c :: rest ∧ letterFoldCI c ∧ rest.length ≤ 99
    ∧ ∀ x ∈ rest, tagTailCharFoldP x

/-- Substring test: does `pat` occur contiguously inside the second list? -/
def hasSub (pat : Str) : Str → Bool
  | [] => pat.isEmpty
  | c :: rest => pat.isPrefixOf (c :: rest) || hasSub pat rest

/-- Is this event a durable log append? -/
def isLoggedEv : Event → Bool
  | Event.logged _ => true
  | _ => false

/-- Split a string at newlines; a trailing newline yields a final empty
line, as in the usual reading of line-structured text. -/
def splitNl : Str → List Str
  | [] => [[]]
  | c :: rest =>
      if c = '\n' then [] :: splitNl rest
      else
        match splitNl rest with
        | [] => [[c]]
        | l :: ls => (c :: l) :: ls

/-! Concrete inputs used by witnesses. -/

/-- A valid commit id: forty lowercase hex characters. -/
def cA : Str := List.replicate 40 'a'

/-- Another valid commit id. -/
def cB : Str := List.replicate 40 'b'

/-- Forty uppercase hex characters: valid per the claim wording, rejected by
the code. -/
def cU : Str := List.replicate 40 'A'

/-- A concrete signing context for witnesses. -/
def ctx0 : Ctx := ⟨"F".data, "U".data, fun _ => "T".data⟩

/-- A concrete signer for witnesses: a fixed two-line signature text. -/
def signer0 : Int → Str → Str := fun _ _ => "S1\nS2\n".data

/-! Helper lemmas. -/

theorem isDigit_iff (c : Char) : c.isDigit = true ↔ ('0' ≤ c ∧ c ≤ '9') := by
  rw [Char.isDigit]
  simp only [ge_iff_le, Bool.and_eq_true, decide_eq_true_eq, Char.le_def]
  exact Iff.rfl

theorem isHexDigitLC_iff (c : Char) :
    isHexDigitLC c = true ↔ (('0' ≤ c ∧ c ≤ '9') ∨ ('a' ≤ c ∧ c ≤ 'f')) := by
  simp [isHexDigitLC, Bool.or_eq_true, Bool.and_eq_true, decide_eq_true_eq, isDigit_iff]

theorem isLetterCI_iff (c : Char) : isLetterCI c = true ↔ letterFoldCI c := by
  simp [isLetterCI, letterFoldCI, letterCI, Bool.or_eq_true, Bool.and_eq_true,
    decide_eq_true_eq, beq_iff_eq, or_assoc]

theorem isTagTailChar_iff (c : Char) :
    isTagTailChar c = true ↔ tagTailCharFoldP c := by
  simp only [isTagTailChar, tagTailCharFoldP, Bool.or_eq_true, Bool.and_eq_true,
    beq_iff_eq, isLetterCI_iff, isDigit_iff, or_assoc]

theorem hasDotDot_iff (s : Str) :
    hasDotDot s = true ↔ ∃ a b, s = a ++ '.' :: '.' :: b := by
  induction s with
  | nil =>
      constructor
      · intro h; exact absurd h (by decide)
      · rintro ⟨a, b, h⟩; cases a <;> simp_all
  | cons x s' ih =>
      cases s' with
      | nil =>
          constructor
          · intro h; exact absurd h (by simp [hasDotDot])
          · rintro ⟨a, b, h⟩
            cases a with
            | nil => simp at h
            | cons y a' => simp at h
      | cons y t =>
          rw [show hasDotDot (x :: y :: t) = ((x == '.' && y == '.') || hasDotDot (y :: t))
              from rfl]
          simp only [Bool.or_eq_true, Bool.and_eq_true, beq_iff_eq]
          constructor
          · rintro (⟨hx, hy⟩ | h)
            · exact ⟨[], t, by rw [hx, hy]; rfl⟩
            · obtain ⟨a, b, hab⟩ := ih.mp h
              exact ⟨x :: a, b, by rw [List.cons_append, ← hab]⟩
          · rintro ⟨a, b, hab⟩
            cases a with
            | nil =>
                simp only [List.nil_append, List.cons.injEq] at hab
                exact Or.inl ⟨hab.1, hab.2.1⟩
            | cons z a' =>
                simp only [List.cons_append, List.cons.injEq] at hab
                exact Or.inr (ih.mpr ⟨a', b, hab.2⟩)

theorem isPrefixOf_append_self (pat b : Str) : pat.isPrefixOf (pat ++ b) = true := by
  induction pat with
  | nil => simp [List.isPrefixOf]
  | cons c cs ih => simp [List.isPrefixOf, ih]

theorem hasSub_cons (pat : Str) (c : Char) (rest : Str) :
    hasSub pat (c :: rest) = (pat.isPrefixOf (c :: rest) || hasSub pat rest) := rfl

theorem hasSub_of_decomp (pat a b : Str) : hasSub pat (a ++ pat ++ b) = true := by
  induction a with
  | nil =>
      cases pat with
      | nil =>
          cases b with
          | nil => rfl
          | cons c r =>
              rw [List.nil_append, List.nil_append, hasSub_cons]
              simp [List.isPrefixOf]
      | cons c cs =>
          rw [List.nil_append, List.cons_append, hasSub_cons, ← List.cons_append,
            isPrefixOf_append_self, Bool.true_or]
  | cons x a' ih =>
      show hasSub pat (x :: (a' ++ pat ++ b)) = true
      rw [hasSub_cons, ih, Bool.or_true]

theorem contains_nl_iff (s : Str) : s.contains '\n' = true ↔ '\n' ∈ s := by
  simp [List.contains]

theorem valid_commit_chars_iff (s : Str) :
    valid_commit s = true ↔
      (s.length = 40 ∧ (∀ c ∈ s, (('0' ≤ c ∧ c ≤ '9') ∨ ('a' ≤ c ∧ c ≤ 'f')))
        ∧ '\n' ∉ s) := by
  rw [valid_commit]
  split
  · rename_i h
    rw [contains_nl_iff] at h
    simp [h]
  · rename_i h
    rw [contains_nl_iff] at h
    simp only [Bool.and_eq_true, beq_iff_eq, List.all_eq_true, isHexDigitLC_iff]
    constructor
    · rintro ⟨h1, h2⟩; exact ⟨h1, h2, h⟩
    · rintro ⟨h1, h2, -⟩; exact ⟨h1, h2⟩

theorem valid_tag_no_nl {s : Str} (h : valid_tag s = true) : '\n' ∉ s := by
  rw [valid_tag] at h
  split at h
  · exact absurd h (by decide)
  · rename_i hc
    rw [contains_nl_iff] at hc
    exact hc

theorem hex_ascii (ch : Char) (h : ('0' ≤ ch ∧ ch ≤ '9') ∨ ('a' ≤ ch ∧ ch ≤ 'f')) :
    ch.toNat < 128 := by
  have h9 : ('9' : Char).val.toBitVec.toNat = 57 := rfl
  have hf : ('f' : Char).val.toBitVec.toNat = 102 := rfl
  rcases h with ⟨-, h2⟩ | ⟨-, h2⟩ <;>
  · rw [Char.le_def, UInt32.le_def, BitVec.le_def] at h2
    show ch.val.toBitVec.toNat < 128
    omega

/-! Claim C3. -/

/-- C3: the claim asserts that `valid_commit` matches hexadecimal digits
case-insensitively, so that forty uppercase hex characters are accepted.
The code compiles its regex without `re.IGNORECASE` and rejects them: at
the input of forty capital letters A the claim-side predicate holds but
`valid_commit` returns false. -/
theorem C3_counterexample :
    ¬ (valid_commit cU = true ↔ commitClaimCI cU = true) := by decide

/-- C3 amended: `valid_commit s` is true iff `s` is exactly forty
characters, all lowercase hexadecimal digits (uppercase hex digits are
rejected), with no embedded newline. -/
theorem C3_valid_commit_lowercase_iff (s : Str) :
    valid_commit s = true ↔
      (s.length = 40 ∧ (∀ c ∈ s, (('0' ≤ c ∧ c ≤ '9') ∨ ('a' ≤ c ∧ c ≤ 'f')))
        ∧ '\n' ∉ s) :=
  valid_commit_chars_iff s

/-! Claim C4. -/

/-- C4: the claim reads the tag regex as an ASCII grammar matched
case-insensitively.  CPython compiles the regex with `re.IGNORECASE` and
Unicode case folding, so the code accepts the one-character tag Kelvin
sign U+212A (it lowercases to k), while the ASCII grammar of the claim
rejects it: the claimed iff fails at that input. -/
theorem C4_counterexample :
    ¬ (valid_tag ['\u212A'] = true ↔
        ('\n' ∉ (['\u212A'] : Str) ∧ tagGrammarCI ['\u212A']
          ∧ ¬ ∃ a b, (['\u212A'] : Str) = a ++ '.' :: '.' :: b)) := by
  intro h
  obtain ⟨-, ⟨c, rest, hcr, hc, -, -⟩, -⟩ := h.mp (by decide)
  injection hcr with h1 h2
  subst h1
  simp only [letterCI] at hc
  rcases hc with ⟨-, h2⟩ | ⟨-, h2⟩ <;> exact absurd h2 (by decide)

/-- C4 amended: `valid_tag s` is true iff `s` has no embedded newline,
matches the tag regex (a letter then up to 99 tail characters)
case-insensitively under Python Unicode case folding — which accepts as
letters, besides ASCII letters of either case, the four characters
U+0130, U+0131, U+017F and U+212A — and does not contain two
consecutive dots; the four examples of the claim behave as stated, and
the one-character Kelvin-sign tag is accepted. -/
theorem C4_valid_tag_fold_iff (s : Str) :
    (valid_tag s = true ↔
      ('\n' ∉ s ∧ tagGrammarFoldCI s ∧ ¬ ∃ a b, s = a ++ '.' :: '.' :: b))
    ∧ valid_tag ("abc".data) = true
    ∧ valid_tag ("-abc".data) = false
    ∧ valid_tag ("a..b".data) = false
    ∧ valid_tag ("a\nb".data) = false
    ∧ valid_tag ['\u212A'] = true := by
  refine ⟨?_, by decide, by decide, by decide, by decide, by decide⟩
  rw [valid_tag]
  split
  · rename_i h
    rw [contains_nl_iff] at h
    simp [h]
  · rename_i h
    rw [contains_nl_iff] at h
    rw [Bool.and_eq_true, Bool.not_eq_true']
    constructor
    · rintro ⟨hm, hd⟩
      refine ⟨h, ?_, ?_⟩
      · cases s with
        | nil => exact absurd hm (by decide)
        | cons c rest =>
            rw [matchTagRegexCI] at hm
            simp only [Bool.and_eq_true, decide_eq_true_eq, List.all_eq_true,
              isLetterCI_iff, isTagTailChar_iff] at hm
            exact ⟨c, rest, rfl, hm.1.1, hm.1.2, hm.2⟩
      · intro hex
        rw [← hasDotDot_iff] at hex
        rw [hex] at hd
        exact absurd hd (by decide)
    · rintro ⟨-, ⟨c, rest, rfl, hc, hlen, hall⟩, hnd⟩
      constructor
      · rw [matchTagRegexCI]
        simp only [Bool.and_eq_true, decide_eq_true_eq, List.all_eq_true,
          isLetterCI_iff, isTagTailChar_iff]
        exact ⟨⟨hc, hlen⟩, hall⟩
      · cases hdd : hasDotDot (c :: rest) with
        | false => rfl
        | true => exact absurd ((hasDotDot_iff _).mp hdd) hnd

/-! Trace lemmas for the two stamping operations. -/

theorem stamp_tag_eq_valid (ctx : Ctx) (acq : Bool) (signer : Int → Str → Str)
    (t : Int) (c g : Str) (h1 : valid_commit c = true) (h2 : valid_tag g = true) :
    stamp_tag ctx acq signer t c g =
      (if acq then
          StampResult.ok (tagObj ctx.fullid ctx.url t c g
            ++ signer t (tagObj ctx.fullid ctx.url t c g))
        else StampResult.unavailable,
       [Event.sampled t, Event.logged (c ++ ['\n'])]
         ++ (if acq then [Event.signRequested t (tagObj ctx.fullid ctx.url t c g)]
             else [])) := by
  cases acq <;> simp [stamp_tag, limited_sign, h1, h2]

theorem stamp_tag_eq_invalid (ctx : Ctx) (acq : Bool) (signer : Int → Str → Str)
    (t : Int) (c g : Str) (h : ¬ (valid_commit c = true ∧ valid_tag g = true)) :
    stamp_tag ctx acq signer t c g = (StampResult.clientError, []) := by
  have hb : (valid_commit c && valid_tag g) = false := by
    cases hc : valid_commit c <;> cases hg : valid_tag g <;> simp_all
  simp [stamp_tag, hb]

theorem stamp_branch_eq_valid (ctx : Ctx) (acq : Bool) (signer : Int → Str → Str)
    (t : Int) (c : Str) (parent : Option Str) (tree : Str)
    (h : branchValid c parent tree = true) :
    stamp_branch ctx acq signer t c parent tree =
      (if acq then
          StampResult.ok (commitPart1 ctx.fullid t c parent tree
            ++ gpgsigHeader (signer t (commitPart1 ctx.fullid t c parent tree
                ++ commitPart2 ctx.url (ctx.isoFormat t)))
            ++ commitPart2 ctx.url (ctx.isoFormat t))
        else StampResult.unavailable,
       [Event.sampled t, Event.logged (c ++ ['\n'])]
         ++ (if acq then
              [Event.signRequested t (commitPart1 ctx.fullid t c parent tree
                ++ commitPart2 ctx.url (ctx.isoFormat t))]
             else [])) := by
  cases acq <;> simp [stamp_branch, limited_sign, h]

theorem stamp_branch_eq_invalid (ctx : Ctx) (acq : Bool) (signer : Int → Str → Str)
    (t : Int) (c : Str) (parent : Option Str) (tree : Str)
    (h : branchValid c parent tree = false) :
    stamp_branch ctx acq signer t c parent tree = (StampResult.clientError, []) := by
  simp [stamp_branch, h]

theorem branchValid_commit {c : Str} {parent : Option Str} {tree : Str}
    (h : branchValid c parent tree = true) : valid_commit c = true := by
  simp only [branchValid, Bool.and_eq_true] at h
  exact h.1.1

/-! Claim C1. -/

/-- C1: for both stamping operations, a rejected request returns the client
error and performs no event at all (no log append, no timestamp sample, no
signing attempt); an accepted request samples the time and appends exactly
one log line, equal to the commit id plus a newline, and every later event
is a signing request, so the log record exists strictly before any signing
attempt begins. -/
theorem C1_logging_iff_validation (ctx : Ctx) (acq : Bool)
    (signer : Int → Str → Str) (t : Int) (commit tagname : Str)
    (parent : Option Str) (tree : Str) :
    (¬ (valid_commit commit = true ∧ valid_tag tagname = true) →
        stamp_tag ctx acq signer t commit tagname = (StampResult.clientError, []))
    ∧ ((valid_commit commit = true ∧ valid_tag tagname = true) →
        ∃ rest, (stamp_tag ctx acq signer t commit tagname).2
            = Event.sampled t :: Event.logged (commit ++ ['\n']) :: rest
          ∧ (∀ e ∈ rest, ∃ ft pl, e = Event.signRequested ft pl)
          ∧ (stamp_tag ctx acq signer t commit tagname).2.countP isLoggedEv = 1)
    ∧ (branchValid commit parent tree = false →
        stamp_branch ctx acq signer t commit parent tree
          = (StampResult.clientError, []))
    ∧ (branchValid commit parent tree = true →
        ∃ rest, (stamp_branch ctx acq signer t commit parent tree).2
            = Event.sampled t :: Event.logged (commit ++ ['\n']) :: rest
          ∧ (∀ e ∈ rest, ∃ ft pl, e = Event.signRequested ft pl)
          ∧ (stamp_branch ctx acq signer t commit parent tree).2.countP isLoggedEv
              = 1) := by
  refine ⟨fun h => stamp_tag_eq_invalid ctx acq signer t commit tagname h,
    fun h => ?_,
    fun h => stamp_branch_eq_invalid ctx acq signer t commit parent tree h,
    fun h => ?_⟩
  · rw [stamp_tag_eq_valid ctx acq signer t commit tagname h.1 h.2]
    cases acq
    · exact ⟨[], by simp, by simp, by simp [List.countP_cons, isLoggedEv]⟩
    · refine ⟨[Event.signRequested t (tagObj ctx.fullid ctx.url t commit tagname)],
        by simp, ?_, by simp [List.countP_cons, isLoggedEv]⟩
      rintro e he
      simp only [List.mem_singleton] at he
      exact ⟨t, tagObj ctx.fullid ctx.url t commit tagname, he⟩
  · rw [stamp_branch_eq_valid ctx acq signer t commit parent tree h]
    cases acq
    · exact ⟨[], by simp, by simp, by simp [List.countP_cons, isLoggedEv]⟩
    · refine ⟨[Event.signRequested t (commitPart1 ctx.fullid t commit parent tree
          ++ commitPart2 ctx.url (ctx.isoFormat t))],
        by simp, ?_, by simp [List.countP_cons, isLoggedEv]⟩
      rintro e he
      simp only [List.mem_singleton] at he
      exact ⟨t, commitPart1 ctx.fullid t commit parent tree
        ++ commitPart2 ctx.url (ctx.isoFormat t), he⟩

/-! Claim C2. -/

/-- C2: the temporarily-unavailable outcome of either stamping operation is
the bare constructor `unavailable` (the Python `None`), it occurs exactly
when the semaphore acquire timed out, it is distinct from the validation
rejection, and whenever it occurs the durable log append for the commit is
already in the trace; conversely, on a validated request whose acquire
times out, the result is `unavailable` and the trace is exactly the sample
followed by the log append. -/
theorem C2_unavailable_after_log (ctx : Ctx) (acq : Bool)
    (signer : Int → Str → Str) (t : Int) (commit tagname : Str)
    (parent : Option Str) (tree : Str) :
    ((stamp_tag ctx acq signer t commit tagname).1 = StampResult.unavailable →
        acq = false
        ∧ Event.logged (commit ++ ['\n'])
            ∈ (stamp_tag ctx acq signer t commit tagname).2)
    ∧ ((stamp_branch ctx acq signer t commit parent tree).1
          = StampResult.unavailable →
        acq = false
        ∧ Event.logged (commit ++ ['\n'])
            ∈ (stamp_branch ctx acq signer t commit parent tree).2)
    ∧ ((valid_commit commit = true ∧ valid_tag tagname = true) → acq = false →
        stamp_tag ctx acq signer t commit tagname
          = (StampResult.unavailable,
             [Event.sampled t, Event.logged (commit ++ ['\n'])]))
    ∧ (branchValid commit parent tree = true → acq = false →
        stamp_branch ctx acq signer t commit parent tree
          = (StampResult.unavailable,
             [Event.sampled t, Event.logged (commit ++ ['\n'])]))
    ∧ StampResult.unavailable ≠ StampResult.clientError := by
  refine ⟨?_, ?_, ?_, ?_, by intro h; cases h⟩
  · by_cases hv : valid_commit commit = true ∧ valid_tag tagname = true
    · rw [stamp_tag_eq_valid ctx acq signer t commit tagname hv.1 hv.2]
      cases acq
      · intro; exact ⟨rfl, by simp⟩
      · intro h; exact absurd h (by simp)
    · rw [stamp_tag_eq_invalid ctx acq signer t commit tagname hv]
      intro h; exact absurd h (by simp)
  · by_cases hv : branchValid commit parent tree = true
    · rw [stamp_branch_eq_valid ctx acq signer t commit parent tree hv]
      cases acq
      · intro; exact ⟨rfl, by simp⟩
      · intro h; exact absurd h (by simp)
    · rw [stamp_branch_eq_invalid ctx acq signer t commit parent tree
        (by simpa using hv)]
      intro h; exact absurd h (by simp)
  · intro hv ha
    subst ha
    rw [stamp_tag_eq_valid ctx false signer t commit tagname hv.1 hv.2]
    simp
  · intro hv ha
    subst ha
    rw [stamp_branch_eq_valid ctx false signer t commit parent tree hv]
    simp

/-! Claim C10. -/

/-- C10: every line the core ever appends to the durable commit log, in
either operation, is a valid commit identifier followed by a single
newline: forty lowercase hexadecimal characters plus the newline, 41
characters in total, all of them ASCII. -/
theorem C10_log_lines_shape (ctx : Ctx) (acq : Bool)
    (signer : Int → Str → Str) (t : Int) (commit tagname : Str)
    (parent : Option Str) (tree : Str) (b : Str) :
    (Event.logged b ∈ (stamp_tag ctx acq signer t commit tagname).2
      ∨ Event.logged b ∈ (stamp_branch ctx acq signer t commit parent tree).2) →
    b.length = 41
    ∧ (∃ c, b = c ++ ['\n'] ∧ c.length = 40
        ∧ ∀ ch ∈ c, (('0' ≤ ch ∧ ch ≤ '9') ∨ ('a' ≤ ch ∧ ch ≤ 'f')))
    ∧ (∀ ch ∈ b, ch.toNat < 128) := by
  intro h
  have hb : valid_commit commit = true ∧ b = commit ++ ['\n'] := by
    rcases h with h | h
    · by_cases hv : valid_commit commit = true ∧ valid_tag tagname = true
      · rw [stamp_tag_eq_valid ctx acq signer t commit tagname hv.1 hv.2] at h
        cases acq <;> simp_all
      · rw [stamp_tag_eq_invalid ctx acq signer t commit tagname hv] at h
        simp at h
    · by_cases hv : branchValid commit parent tree = true
      · rw [stamp_branch_eq_valid ctx acq signer t commit parent tree hv] at h
        have := branchValid_commit hv
        cases acq <;> simp_all
      · rw [stamp_branch_eq_invalid ctx acq signer t commit parent tree
          (by simpa using hv)] at h
        simp at h
  obtain ⟨hv, rfl⟩ := hb
  obtain ⟨hlen, hchars, -⟩ := (valid_commit_chars_iff commit).mp hv
  refine ⟨by simp [hlen], ⟨commit, rfl, hlen, hchars⟩, ?_⟩
  intro ch hch
  rcases List.mem_append.mp hch with hch | hch
  · exact hex_ascii ch (hchars ch hch)
  · rw [List.mem_singleton] at hch
    subst hch
    decide

/-! Pool lemmas for claim C6. -/

theorem gpgRun_succ (m k : Nat) (p : List Nat) :
    gpgRun m (k + 1) p
      = ((gpgNext m p).1 :: (gpgRun m k (gpgNext m p).2).1,
         (gpgRun m k (gpgNext m p).2).2) := rfl

theorem gpgNext_len (m : Nat) (p : List Nat) :
    ((gpgNext m p).2).length = if p.length < m then p.length + 1 else p.length := by
  by_cases h : p.length < m
  · simp [gpgNext, h]
  · cases p with
    | nil => simp only [List.length_nil] at h; simp [gpgNext, h]
    | cons g rest => simp only [List.length_cons] at h; simp [gpgNext, h]

theorem gpgNext_mem (m : Nat) (p : List Nat) (h : Nat) (hm : h ∈ p) :
    h ∈ (gpgNext m p).2 := by
  by_cases hl : p.length < m
  · simp only [gpgNext, if_pos hl]
    exact List.mem_append_left _ hm
  · cases p with
    | nil => cases hm
    | cons g rest =>
        simp only [gpgNext, if_neg hl]
        rcases List.mem_cons.mp hm with h1 | h1
        · exact List.mem_append_right _ (by simp [h1])
        · exact List.mem_append_left _ h1

theorem gpgRun_len (m : Nat) :
    ∀ (k : Nat) (p : List Nat), 1 ≤ p.length → p.length ≤ m →
      ((gpgRun m k p).2).length = min (p.length + k) m := by
  intro k
  induction k with
  | zero =>
      intro p h1 h2
      show p.length = min (p.length + 0) m
      omega
  | succ k ih =>
      intro p h1 h2
      rw [gpgRun_succ]
      by_cases hl : p.length < m
      · have hlen : ((gpgNext m p).2).length = p.length + 1 := by
          rw [gpgNext_len, if_pos hl]
        rw [ih ((gpgNext m p).2) (by omega) (by omega), hlen]
        omega
      · have hlen : ((gpgNext m p).2).length = p.length := by
          rw [gpgNext_len, if_neg hl]
        rw [ih ((gpgNext m p).2) (by omega) (by omega), hlen]
        omega

theorem gpgRun_cap (m : Nat) :
    ∀ (k : Nat) (p : List Nat), p.length = m → k ≤ m →
      gpgRun m k p = (p.take k, p.drop k ++ p.take k) := by
  intro k
  induction k with
  | zero => intro p h1 h2; simp [gpgRun]
  | succ k ih =>
      intro p h1 h2
      cases p with
      | nil => exact absurd h2 (by simp at h1; omega)
      | cons x xs =>
          have hnl : ¬ ((x :: xs).length < m) := by simp [← h1]
          have hxm : (x :: xs).length = m := h1
          rw [gpgRun_succ]
          rw [show gpgNext m (x :: xs) = (x, xs ++ [x]) by
            simp only [List.length_cons] at hnl; simp [gpgNext, hnl]]
          have hlen2 : (xs ++ [x]).length = m := by
            simpa using h1
          have hk : k ≤ xs.length := by
            simp at hxm; omega
          rw [ih (xs ++ [x]) hlen2 (by omega)]
          rw [List.take_append_of_le_length hk, List.drop_append_of_le_length hk]
          simp [List.append_assoc]

theorem gpgRun_add (m : Nat) :
    ∀ (a b : Nat) (p : List Nat),
      gpgRun m (a + b) p
        = ((gpgRun m a p).1 ++ (gpgRun m b (gpgRun m a p).2).1,
           (gpgRun m b (gpgRun m a p).2).2) := by
  intro a
  induction a with
  | zero => intro b p; simp [gpgRun]
  | succ a ih =>
      intro b p
      rw [Nat.succ_add, gpgRun_succ, gpgRun_succ, ih]
      simp

theorem gpgRun_cycle (m : Nat) (p : List Nat) (h1 : p.length = m) :
    gpgRun m m p = (p, p) := by
  rw [gpgRun_cap m m p h1 (Nat.le_refl m), ← h1, List.take_length,
    List.drop_length, List.nil_append]

theorem gpgRun_two_cycles (m : Nat) (p : List Nat) (h1 : p.length = m) :
    (gpgRun m (2 * m) p).1 = p ++ p ∧ (gpgRun m (2 * m) p).2 = p := by
  have hc := gpgRun_cycle m p h1
  constructor <;> rw [two_mul, gpgRun_add, hc] <;> simp [hc]

/-! Claim C6. -/

/-- C6: the claim asserts that after `k` requests with `k` at most the
configured maximum, exactly `k` handles exist.  The pool already holds one
handle when the stamper is constructed, and construction itself performs
two further selections, so with a maximum of 2 agents a single request
leaves 2 handles in the pool, not 1. -/
theorem C6_counterexample :
    ((gpgRun 2 1 (initPool 2)).2).length = 2
    ∧ ¬ ((gpgRun 2 1 (initPool 2)).2).length = 1 := by decide

/-- C6 amended: the constructor creates one handle and performs two
selections, so after `k` further selections the pool holds the minimum of
`3 + k` and `maxAgents` handles (for `maxAgents` at least 1) — growth is
monotone and capped, but the count after `k` requests is not `k`; selection
never destroys a handle; and once any pool is at the cap, a sequence of
`2 * maxAgents` selections returns the pool twice over — each handle of a
duplicate-free pool exactly twice, in repeating cyclic order — and leaves
the pool as it started. -/
theorem C6_pool_growth_rotation (m k : Nat) (hm : 1 ≤ m) :
    ((gpgRun m k (initPool m)).2).length = min (3 + k) m
    ∧ (∀ p h, h ∈ p → h ∈ (gpgNext m p).2)
    ∧ (∀ p : List Nat, p.length = m →
        (gpgRun m (2 * m) p).1 = p ++ p
        ∧ (gpgRun m (2 * m) p).2 = p
        ∧ (∀ h, p.Nodup → h ∈ p → (gpgRun m (2 * m) p).1.count h = 2)) := by
  refine ⟨?_, fun p h => gpgNext_mem m p h, fun p hp => ?_⟩
  · have e : (gpgRun m k (initPool m)).2 = (gpgRun m (2 + k) [0]).2 := by
      rw [gpgRun_add m 2 k [0]]; rfl
    rw [e, gpgRun_len m (2 + k) [0] (by simp) (by simpa using hm)]
    simp only [List.length_cons, List.length_nil]
    omega
  · obtain ⟨ht, hs⟩ := gpgRun_two_cycles m p hp
    refine ⟨ht, hs, fun h hnd hmem => ?_⟩
    rw [ht, List.count_append, List.count_eq_one_of_mem hnd hmem]

theorem C6_pool_growth_rotation_witness :
    1 ≤ 2 ∧ ((gpgRun 2 1 (initPool 2)).2).length = min (3 + 1) 2 :=
  ⟨by decide, (C6_pool_growth_rotation 2 1 (by decide)).1⟩

theorem C1_logging_iff_validation_witness :
    (valid_commit cA = true ∧ valid_tag ("abc".data) = true)
    ∧ ∃ rest, (stamp_tag ctx0 true signer0 5 cA ("abc".data)).2
        = Event.sampled 5 :: Event.logged (cA ++ ['\n']) :: rest
      ∧ (∀ e ∈ rest, ∃ ft pl, e = Event.signRequested ft pl)
      ∧ (stamp_tag ctx0 true signer0 5 cA ("abc".data)).2.countP isLoggedEv = 1 :=
  ⟨⟨by decide, by decide⟩,
   (C1_logging_iff_validation ctx0 true signer0 5 cA ("abc".data) none cA).2.1
     ⟨by decide, by decide⟩⟩

theorem C2_unavailable_after_log_witness :
    (valid_commit cA = true ∧ valid_tag ("abc".data) = true)
    ∧ stamp_tag ctx0 false signer0 5 cA ("abc".data)
        = (StampResult.unavailable,
           [Event.sampled 5, Event.logged (cA ++ ['\n'])]) :=
  ⟨⟨by decide, by decide⟩,
   (C2_unavailable_after_log ctx0 false signer0 5 cA ("abc".data) none cA).2.2.1
     ⟨by decide, by decide⟩ rfl⟩

/-! Line-splitting and newline-replacement lemmas. -/

theorem not_nl_append {xs ys : Str} (h1 : '\n' ∉ xs) (h2 : '\n' ∉ ys) :
    '\n' ∉ xs ++ ys := by
  intro m
  rcases List.mem_append.mp m with m | m
  · exact h1 m
  · exact h2 m

theorem splitNl_nl (ys : Str) : splitNl ('\n' :: ys) = [] :: splitNl ys := by
  simp [splitNl]

theorem splitNl_chunk (xs ys : Str) (h : '\n' ∉ xs) :
    splitNl (xs ++ '\n' :: ys) = xs :: splitNl ys := by
  induction xs with
  | nil => simp [splitNl]
  | cons c cs ih =>
      have hc : ¬ c = '\n' := fun e => h (by rw [e]; exact List.mem_cons_self '\n' cs)
      have hcs : '\n' ∉ cs := fun m => h (List.mem_cons_of_mem _ m)
      rw [List.cons_append]
      simp [splitNl, hc, ih hcs]

theorem replaceNl_append (a b : Str) :
    replaceNl (a ++ b) = replaceNl a ++ replaceNl b := by
  induction a with
  | nil => rfl
  | cons c cs ih => by_cases hc : c = '\n' <;> simp [replaceNl, hc, ih]

theorem gpgsigHeader_of_trailing_nl (s : Str) :
    gpgsigHeader (s ++ ['\n']) = "gpgsig ".data ++ replaceNl s ++ ['\n'] := by
  rw [gpgsigHeader, replaceNl_append]
  rw [show replaceNl ['\n'] = ['\n'] ++ [' '] from rfl]
  rw [← List.append_assoc, List.dropLast_concat, List.append_assoc]

theorem valid_commit_no_nl {s : Str} (h : valid_commit s = true) : '\n' ∉ s :=
  ((valid_commit_chars_iff s).mp h).2.2

/-! Claim C5. -/

/-- C5: the claim asserts that when the optional parent is absent the
commit object contains no parent line at all.  In the code the stamped
commit itself is always a parent: with `parent = none` the first section
still contains one line of the word parent followed by the commit id.  At
concrete valid inputs the built text is shown explicitly and it contains a
parent line. -/
theorem C5_counterexample :
    commitPart1 ("F".data) 0 cA none cB
      = "tree ".data ++ cB ++ "\nparent ".data ++ cA
        ++ "\nauthor F 0 +0000\ncommitter F 0 +0000\n".data
    ∧ hasSub ("\nparent ".data) (commitPart1 ("F".data) 0 cA none cB) = true :=
  ⟨by decide, by decide⟩

/-- C5 amended: for every valid branch request the first section of the
commit object is the tree line, then exactly one parent line naming the
stamped commit when the parent argument is absent — and two parent lines,
the supplied parent then the stamped commit, when it is present — then the
author and committer lines with the identity, the timestamp and the UTC
offset. -/
theorem C5_commit_part1_lines (fid : Str) (now : Int) (commit tree p : Str)
    (hc : valid_commit commit = true) (ht : valid_commit tree = true)
    (hp : valid_commit p = true) (hfid : '\n' ∉ fid) (hnow : '\n' ∉ intStr now) :
    splitNl (commitPart1 fid now commit none tree)
      = ["tree ".data ++ tree, "parent ".data ++ commit,
         "author ".data ++ fid ++ " ".data ++ intStr now ++ " +0000".data,
         "committer ".data ++ fid ++ " ".data ++ intStr now ++ " +0000".data,
         []]
    ∧ splitNl (commitPart1 fid now commit (some p) tree)
      = ["tree ".data ++ tree, "parent ".data ++ p, "parent ".data ++ commit,
         "author ".data ++ fid ++ " ".data ++ intStr now ++ " +0000".data,
         "committer ".data ++ fid ++ " ".data ++ intStr now ++ " +0000".data,
         []] := by
  have hcn := valid_commit_no_nl hc
  have htn := valid_commit_no_nl ht
  have hpn := valid_commit_no_nl hp
  have hTree : '\n' ∉ "tree ".data ++ tree := not_nl_append (by decide) htn
  have hPar : '\n' ∉ "parent ".data ++ commit := not_nl_append (by decide) hcn
  have hParP : '\n' ∉ "parent ".data ++ p := not_nl_append (by decide) hpn
  have hAuth : '\n' ∉ "author ".data ++ fid ++ " ".data ++ intStr now
      ++ " +0000".data :=
    not_nl_append (not_nl_append (not_nl_append (not_nl_append (by decide) hfid)
      (by decide)) hnow) (by decide)
  have hComm : '\n' ∉ "committer ".data ++ fid ++ " ".data ++ intStr now
      ++ " +0000".data :=
    not_nl_append (not_nl_append (not_nl_append (not_nl_append (by decide) hfid)
      (by decide)) hnow) (by decide)
  constructor
  · have e : commitPart1 fid now commit none tree
        = ("tree ".data ++ tree)
          ++ '\n' :: (("parent ".data ++ commit)
          ++ '\n' :: (("author ".data ++ fid ++ " ".data ++ intStr now
              ++ " +0000".data)
          ++ '\n' :: (("committer ".data ++ fid ++ " ".data ++ intStr now
              ++ " +0000".data)
          ++ '\n' :: []))) := by
      simp only [commitPart1, List.append_assoc, List.cons_append, List.nil_append]
    rw [e, splitNl_chunk _ _ hTree, splitNl_chunk _ _ hPar,
      splitNl_chunk _ _ hAuth, splitNl_chunk _ _ hComm]
    rfl
  · have e : commitPart1 fid now commit (some p) tree
        = ("tree ".data ++ tree)
          ++ '\n' :: (("parent ".data ++ p)
          ++ '\n' :: (("parent ".data ++ commit)
          ++ '\n' :: (("author ".data ++ fid ++ " ".data ++ intStr now
              ++ " +0000".data)
          ++ '\n' :: (("committer ".data ++ fid ++ " ".data ++ intStr now
              ++ " +0000".data)
          ++ '\n' :: [])))) := by
      simp only [commitPart1, List.append_assoc, List.cons_append, List.nil_append]
    rw [e, splitNl_chunk _ _ hTree, splitNl_chunk _ _ hParP,
      splitNl_chunk _ _ hPar, splitNl_chunk _ _ hAuth, splitNl_chunk _ _ hComm]
    rfl

theorem C5_commit_part1_lines_witness :
    (valid_commit cA = true ∧ valid_commit cB = true
      ∧ '\n' ∉ "F".data ∧ '\n' ∉ intStr 0)
    ∧ splitNl (commitPart1 ("F".data) 0 cA none cB)
      = ["tree ".data ++ cB, "parent ".data ++ cA,
         "author ".data ++ "F".data ++ " ".data ++ intStr 0 ++ " +0000".data,
         "committer ".data ++ "F".data ++ " ".data ++ intStr 0 ++ " +0000".data,
         []] :=
  ⟨⟨by decide, by decide, by decide, by decide⟩,
   (C5_commit_part1_lines ("F".data) 0 cA cB cA (by decide) (by decide) (by decide)
     (by decide) (by decide)).1⟩

/-! Claim C7. -/

/-- C7: for every signature text ending in a newline, the embedded header
equals the word gpgsig and a space followed by the signature with every
internal newline replaced by newline plus a single space and the final
trailing newline preserved unmodified; the two-line example of the claim
renders as stated; and the returned commit object text is exactly the first
part, then the header, then the second part. -/
theorem C7_gpgsig_continuation (ctx : Ctx) (signer : Int → Str → Str) (t : Int)
    (commit : Str) (parent : Option Str) (tree : Str)
    (hb : branchValid commit parent tree = true) :
    (∀ s : Str, gpgsigHeader (s ++ ['\n'])
        = "gpgsig ".data ++ replaceNl s ++ ['\n'])
    ∧ gpgsigHeader ("SIGLINE1\nSIGLINE2\n".data)
        = "gpgsig SIGLINE1\n SIGLINE2\n".data
    ∧ (stamp_branch ctx true signer t commit parent tree).1
        = StampResult.ok (commitPart1 ctx.fullid t commit parent tree
            ++ gpgsigHeader (signer t (commitPart1 ctx.fullid t commit parent tree
                ++ commitPart2 ctx.url (ctx.isoFormat t)))
            ++ commitPart2 ctx.url (ctx.isoFormat t)) := by
  refine ⟨gpgsigHeader_of_trailing_nl, by decide, ?_⟩
  rw [stamp_branch_eq_valid ctx true signer t commit parent tree hb]; rfl

theorem C7_gpgsig_continuation_witness :
    (branchValid cA none cB = true)
    ∧ ((∀ s : Str, gpgsigHeader (s ++ ['\n'])
        = "gpgsig ".data ++ replaceNl s ++ ['\n'])
    ∧ gpgsigHeader ("SIGLINE1\nSIGLINE2\n".data)
        = "gpgsig SIGLINE1\n SIGLINE2\n".data
    ∧ (stamp_branch ctx0 true signer0 5 cA none cB).1
        = StampResult.ok (commitPart1 ctx0.fullid 5 cA none cB
            ++ gpgsigHeader (signer0 5 (commitPart1 ctx0.fullid 5 cA none cB
                ++ commitPart2 ctx0.url (ctx0.isoFormat 5)))
            ++ commitPart2 ctx0.url (ctx0.isoFormat 5))) :=
  ⟨by decide, C7_gpgsig_continuation ctx0 signer0 5 cA none cB (by decide)⟩

/-! Claim C8. -/

/-- C8: for every valid tag request the tag object body consists of exactly
the object line, the type line, the tag line, the tagger line, a blank line
and the url line, with a trailing newline; that entire body is the payload
handed to the signer; and the returned text is the body followed by the
signature, concatenated verbatim, leaving the body unchanged. -/
theorem C8_tag_object_exact (ctx : Ctx) (signer : Int → Str → Str) (t : Int)
    (commit tagname : Str)
    (h1 : valid_commit commit = true) (h2 : valid_tag tagname = true)
    (hfid : '\n' ∉ ctx.fullid) (hurl : '\n' ∉ ctx.url)
    (hnow : '\n' ∉ intStr t) :
    splitNl (tagObj ctx.fullid ctx.url t commit tagname)
      = ["object ".data ++ commit, "type commit".data, "tag ".data ++ tagname,
         "tagger ".data ++ ctx.fullid ++ " ".data ++ intStr t ++ " +0000".data,
         [], ctx.url ++ " tag timestamp".data, []]
    ∧ (stamp_tag ctx true signer t commit tagname).2
        = [Event.sampled t, Event.logged (commit ++ ['\n']),
           Event.signRequested t (tagObj ctx.fullid ctx.url t commit tagname)]
    ∧ (stamp_tag ctx true signer t commit tagname).1
        = StampResult.ok (tagObj ctx.fullid ctx.url t commit tagname
            ++ signer t (tagObj ctx.fullid ctx.url t commit tagname)) := by
  have hcn := valid_commit_no_nl h1
  have hgn := valid_tag_no_nl h2
  have hObj : '\n' ∉ "object ".data ++ commit := not_nl_append (by decide) hcn
  have hTag : '\n' ∉ "tag ".data ++ tagname := not_nl_append (by decide) hgn
  have hTagger : '\n' ∉ "tagger ".data ++ ctx.fullid ++ " ".data ++ intStr t
      ++ " +0000".data :=
    not_nl_append (not_nl_append (not_nl_append (not_nl_append (by decide) hfid)
      (by decide)) hnow) (by decide)
  have hUrl : '\n' ∉ ctx.url ++ " tag timestamp".data :=
    not_nl_append hurl (by decide)
  refine ⟨?_, ?_, ?_⟩
  · have e : tagObj ctx.fullid ctx.url t commit tagname
        = ("object ".data ++ commit)
          ++ '\n' :: ("type commit".data
          ++ '\n' :: (("tag ".data ++ tagname)
          ++ '\n' :: (("tagger ".data ++ ctx.fullid ++ " ".data ++ intStr t
              ++ " +0000".data)
          ++ '\n' :: ('\n' :: ((ctx.url ++ " tag timestamp".data)
          ++ '\n' :: []))))) := by
      simp only [tagObj, List.append_assoc, List.cons_append, List.nil_append]
    rw [e, splitNl_chunk _ _ hObj, splitNl_chunk _ _ (by decide),
      splitNl_chunk _ _ hTag, splitNl_chunk _ _ hTagger, splitNl_nl,
      splitNl_chunk _ _ hUrl]
    rfl
  · rw [stamp_tag_eq_valid ctx true signer t commit tagname h1 h2]; rfl
  · rw [stamp_tag_eq_valid ctx true signer t commit tagname h1 h2]; rfl

theorem C8_tag_object_exact_witness :
    (valid_commit cA = true ∧ valid_tag ("abc".data) = true
      ∧ '\n' ∉ ctx0.fullid ∧ '\n' ∉ ctx0.url ∧ '\n' ∉ intStr 5)
    ∧ splitNl (tagObj ctx0.fullid ctx0.url 5 cA ("abc".data))
      = ["object ".data ++ cA, "type commit".data, "tag ".data ++ "abc".data,
         "tagger ".data ++ ctx0.fullid ++ " ".data ++ intStr 5 ++ " +0000".data,
         [], ctx0.url ++ " tag timestamp".data, []] :=
  ⟨⟨by decide, by decide, by decide, by decide, by decide⟩,
   (C8_tag_object_exact ctx0 signer0 5 cA ("abc".data) (by decide) (by decide)
     (by decide) (by decide) (by decide)).1⟩

/-! Claim C9. -/

/-- C9: on an accepted request the timestamp is sampled exactly once, and
the same integer value `t` is both rendered into the git object text (the
tagger line for tags, the author and committer lines for branches) and
passed as the faked system time of the signing request, so the two embedded
times never diverge. -/
theorem C9_single_timestamp (ctx : Ctx) (signer : Int → Str → Str) (t : Int)
    (commit tagname : Str) (parent : Option Str) (tree : Str)
    (h1 : valid_commit commit = true) (h2 : valid_tag tagname = true)
    (hb : branchValid commit parent tree = true) :
    (∃ pl, (stamp_tag ctx true signer t commit tagname).2
        = [Event.sampled t, Event.logged (commit ++ ['\n']),
           Event.signRequested t pl]
      ∧ hasSub ("tagger ".data ++ ctx.fullid ++ " ".data ++ intStr t
          ++ " +0000".data) pl = true)
    ∧ (∃ pl, (stamp_branch ctx true signer t commit parent tree).2
        = [Event.sampled t, Event.logged (commit ++ ['\n']),
           Event.signRequested t pl]
      ∧ hasSub ("author ".data ++ ctx.fullid ++ " ".data ++ intStr t
          ++ " +0000".data) pl = true
      ∧ hasSub ("committer ".data ++ ctx.fullid ++ " ".data ++ intStr t
          ++ " +0000".data) pl = true) := by
  constructor
  · refine ⟨tagObj ctx.fullid ctx.url t commit tagname, ?_, ?_⟩
    · rw [stamp_tag_eq_valid ctx true signer t commit tagname h1 h2]; rfl
    · have e : tagObj ctx.fullid ctx.url t commit tagname
          = ("object ".data ++ commit ++ "\ntype commit\ntag ".data
              ++ tagname ++ ['\n'])
            ++ ("tagger ".data ++ ctx.fullid ++ " ".data ++ intStr t
              ++ " +0000".data)
            ++ ("\n\n".data ++ ctx.url ++ " tag timestamp\n".data) := by
        simp only [tagObj, List.append_assoc, List.cons_append, List.nil_append]
      rw [e]
      exact hasSub_of_decomp _ _ _
  · refine ⟨commitPart1 ctx.fullid t commit parent tree
        ++ commitPart2 ctx.url (ctx.isoFormat t), ?_, ?_, ?_⟩
    · rw [stamp_branch_eq_valid ctx true signer t commit parent tree hb]; rfl
    · cases parent with
      | none =>
          have e : commitPart1 ctx.fullid t commit none tree
                ++ commitPart2 ctx.url (ctx.isoFormat t)
              = ("tree ".data ++ tree ++ "\nparent ".data ++ commit ++ ['\n'])
                ++ ("author ".data ++ ctx.fullid ++ " ".data ++ intStr t
                  ++ " +0000".data)
                ++ ("\ncommitter ".data ++ ctx.fullid ++ " ".data ++ intStr t
                  ++ " +0000\n".data ++ commitPart2 ctx.url (ctx.isoFormat t)) := by
            simp only [commitPart1, commitPart2, List.append_assoc,
              List.cons_append, List.nil_append]
          rw [e]
          exact hasSub_of_decomp _ _ _
      | some p =>
          have e : commitPart1 ctx.fullid t commit (some p) tree
                ++ commitPart2 ctx.url (ctx.isoFormat t)
              = ("tree ".data ++ tree ++ "\nparent ".data ++ p
                  ++ "\nparent ".data ++ commit ++ ['\n'])
                ++ ("author ".data ++ ctx.fullid ++ " ".data ++ intStr t
                  ++ " +0000".data)
                ++ ("\ncommitter ".data ++ ctx.fullid ++ " ".data ++ intStr t
                  ++ " +0000\n".data ++ commitPart2 ctx.url (ctx.isoFormat t)) := by
            simp only [commitPart1, commitPart2, List.append_assoc,
              List.cons_append, List.nil_append]
          rw [e]
          exact hasSub_of_decomp _ _ _
    · cases parent with
      | none =>
          have e : commitPart1 ctx.fullid t commit none tree
                ++ commitPart2 ctx.url (ctx.isoFormat t)
              = ("tree ".data ++ tree ++ "\nparent ".data ++ commit
                  ++ "\nauthor ".data ++ ctx.fullid ++ " ".data ++ intStr t
                  ++ " +0000\n".data)
                ++ ("committer ".data ++ ctx.fullid ++ " ".data ++ intStr t
                  ++ " +0000".data)
                ++ (['\n'] ++ commitPart2 ctx.url (ctx.isoFormat t)) := by
            simp only [commitPart1, commitPart2, List.append_assoc,
              List.cons_append, List.nil_append]
          rw [e]
          exact hasSub_of_decomp _ _ _
      | some p =>
          have e : commitPart1 ctx.fullid t commit (some p) tree
                ++ commitPart2 ctx.url (ctx.isoFormat t)
              = ("tree ".data ++ tree ++ "\nparent ".data ++ p
                  ++ "\nparent ".data ++ commit
                  ++ "\nauthor ".data ++ ctx.fullid ++ " ".data ++ intStr t
                  ++ " +0000\n".data)
                ++ ("committer ".data ++ ctx.fullid ++ " ".data ++ intStr t
                  ++ " +0000".data)
                ++ (['\n'] ++ commitPart2 ctx.url (ctx.isoFormat t)) := by
            simp only [commitPart1, commitPart2, List.append_assoc,
              List.cons_append, List.nil_append]
          rw [e]
          exact hasSub_of_decomp _ _ _

theorem C9_single_timestamp_witness :
    (valid_commit cA = true ∧ valid_tag ("abc".data) = true
      ∧ branchValid cA none cB = true)
    ∧ ((∃ pl, (stamp_tag ctx0 true signer0 5 cA ("abc".data)).2
        = [Event.sampled 5, Event.logged (cA ++ ['\n']),
           Event.signRequested 5 pl]
      ∧ hasSub ("tagger ".data ++ ctx0.fullid ++ " ".data ++ intStr 5
          ++ " +0000".data) pl = true)
    ∧ (∃ pl, (stamp_branch ctx0 true signer0 5 cA none cB).2
        = [Event.sampled 5, Event.logged (cA ++ ['\n']),
           Event.signRequested 5 pl]
      ∧ hasSub ("author ".data ++ ctx0.fullid ++ " ".data ++ intStr 5
          ++ " +0000".data) pl = true
      ∧ hasSub ("committer ".data ++ ctx0.fullid ++ " ".data ++ intStr 5
          ++ " +0000".data) pl = true)) :=
  ⟨⟨by decide, by decide, by decide⟩,
   C9_single_timestamp ctx0 signer0 5 cA ("abc".data) none cB
     (by decide) (by decide) (by decide)⟩

theorem C10_log_lines_shape_witness :
    (Event.logged (cA ++ ['\n']) ∈ (stamp_tag ctx0 true signer0 5 cA ("abc".data)).2)
    ∧ ((cA ++ ['\n']).length = 41
      ∧ (∃ c, cA ++ ['\n'] = c ++ ['\n'] ∧ c.length = 40
          ∧ ∀ ch ∈ c, (('0' ≤ ch ∧ ch ≤ '9') ∨ ('a' ≤ ch ∧ ch ≤ 'f')))
      ∧ (∀ ch ∈ cA ++ ['\n'], ch.toNat < 128)) :=
  ⟨by decide,
   C10_log_lines_shape ctx0 true signer0 5 cA ("abc".data) none cA (cA ++ ['\n'])
     (Or.inl (by decide))⟩

end Zeitgitter
